import Mathlib

/-!
Verification of the text-replacement engine of the pptxsanitizer repository.

Strings are modelled as `List Char` (Python `str`); a Python text value `s`
corresponds to the Lean value `s.data`.  Each definition below is a direct
translation of the named Python function, with the source location given in
its doc comment.  Mutation of python-pptx objects (runs, paragraphs, text
frames, slides) is modelled by explicit state passing: a function that
mutates an object and returns a count becomes a function returning the new
object paired with the count.
-/

/-- Python whitespace (the set matched by `str.isspace`, `str.strip` and the
regex class backslash-s on `str` patterns in CPython): ASCII whitespace,
the C0 separator block 1C-1F, NEL, NBSP and the Unicode space separators. -/
def pyWsChars : List Char :=
  [' ', '\t', '\n', '\x0b', '\x0c', '\r',
   '\x1c', '\x1d', '\x1e', '\x1f', '\x85', '\xa0',
   '\u1680', '\u2000', '\u2001', '\u2002', '\u2003', '\u2004', '\u2005',
   '\u2006', '\u2007', '\u2008', '\u2009', '\u200a',
   '\u2028', '\u2029', '\u202f', '\u205f', '\u3000']

/-- Whether a character is Python whitespace. -/
def isWs (c : Char) : Bool := pyWsChars.contains c

/-- Python `str.strip()`: remove leading and trailing whitespace. -/
def stripWs (s : List Char) : List Char :=
  ((s.dropWhile isWs).reverse.dropWhile isWs).reverse

/-- Python `re.sub(backslash-s+, " ", s)`: collapse every maximal run of
whitespace characters to a single space.  Within a run all characters but
the last are dropped; the last is emitted as a space. -/
def collapseWs : List Char → List Char
  | [] => []
  | [c] => if isWs c then [' '] else [c]
  | c :: d :: rest =>
    if isWs c && isWs d then collapseWs (d :: rest)
    else (if isWs c then ' ' else c) :: collapseWs (d :: rest)

/-- The chain of single-character `str.replace` calls in
`normalize_text_for_matching` (src/src/utils/text_processing.py lines 22-28):
non-breaking space to space, en/em dash to hyphen-minus, curly double quotes
to straight double quote, curly single quotes to straight apostrophe.
A single-character `str.replace` is exactly a character map. -/
def replSpecial (c : Char) : Char :=
  if c = '\xa0' then ' '
  else if c = '\u2013' then '-'
  else if c = '\u2014' then '-'
  else if c = '\u201c' then '"'
  else if c = '\u201d' then '"'
  else if c = '\u2018' then '\''
  else if c = '\u2019' then '\''
  else c

/-- `TextProcessor.normalize_text_for_matching`
(src/src/utils/text_processing.py lines 14-30): strip, collapse whitespace
runs to a single space, then map the typographic special characters.
The Python guard returning the empty string on empty input is subsumed:
all three stages send the empty list to the empty list. -/
def normalize_text_for_matching (s : List Char) : List Char :=
  (collapseWs (stripWs s)).map replSpecial

/-- Boolean test that a pattern is a prefix of a string. -/
def isPre : List Char → List Char → Bool
  | [], _ => true
  | _ :: _, [] => false
  | a :: as, b :: bs => if a = b then isPre as bs else false

/-- Python `pat in s` for strings: contiguous substring test (the empty
pattern is contained in every string, as in Python). -/
def isSub (pat : List Char) : List Char → Bool
  | [] => isPre pat []
  | s@(_ :: cs) => isPre pat s || isSub pat cs

/-- Scanning core of Python `str.replace`: scan left to right; at each
position where the (non-empty) pattern matches emit the replacement and skip
the matched characters (the skip counter carries how many matched characters
remain to be dropped), otherwise emit the current character.  This is the
left-to-right non-overlapping replace-all of CPython.  Every call site in
the repository guards the pattern to be non-empty. -/
def pyRepAux (pat rep : List Char) : List Char → Nat → List Char
  | [], _ => []
  | _ :: cs, skip + 1 => pyRepAux pat rep cs skip
  | c :: cs, 0 =>
    if pat ≠ [] ∧ isPre pat (c :: cs) = true then
      rep ++ pyRepAux pat rep cs (pat.length - 1)
    else
      c :: pyRepAux pat rep cs 0

/-- Python `s.replace(pat, rep)` for a non-empty pattern. -/
def pyReplace (pat rep s : List Char) : List Char :=
  pyRepAux pat rep s 0

example : pyReplace "Alice".data "X".data "Alice and Alice".data = "X and X".data := by decide
example : normalize_text_for_matching "  John \t  Doe ".data = "John Doe".data := by decide
example : normalize_text_for_matching "a\u2013b\u00a0c".data = "a-b c".data := by decide
example : isSub "John Doe".data "John   Doe".data = false := by decide

/-- The characters escaped by CPython `re.escape` (3.7 and later): the byte
set b of parens, brackets, braces, quantifier and anchor symbols, backslash,
dot, ampersand, tilde, hash and the six ASCII whitespace characters. -/
def reSpecialChars : List Char :=
  ['(', ')', '[', ']', '\x7b', '\x7d', '?', '*', '+', '-', '|', '^', '$',
   '\\', '.', '&', '~', '#', ' ', '\t', '\n', '\r', '\x0b', '\x0c']

/-- Whether `re.escape` puts a backslash before this character. -/
def pySpecial (c : Char) : Bool := reSpecialChars.contains c

/-- Python `re.escape`: each special character is prefixed with a backslash,
all other characters pass through. -/
def reEscape (s : List Char) : List Char :=
  (s.map fun c => if pySpecial c then ['\\', c] else [c]).flatten

/-- `TextProcessor.create_flexible_pattern`
(src/src/utils/text_processing.py lines 38-44): escape the search term, then
replace every escaped space (backslash space) with the pattern
backslash-s-star, a zero-or-more-whitespace wildcard. -/
def create_flexible_pattern (search_term : List Char) : List Char :=
  pyReplace ['\\', ' '] ['\\', 's', '*'] (reEscape search_term)

/-- Token alphabet of the regex fragment that `create_flexible_pattern`
emits: literal characters (plain or backslash-escaped) and the
zero-or-more-whitespace wildcard. -/
inductive Tok where
  | lit (c : Char)
  | wsStar
deriving DecidableEq

/-- Parse a pattern string of the emitted fragment into tokens:
backslash-s-star becomes the whitespace wildcard, a backslash-escaped
character becomes that literal, any other character is itself a literal.
`re.escape` never produces a bare backslash-s, so this is faithful on every
output of `create_flexible_pattern`. -/
def tokenize : List Char → List Tok
  | [] => []
  | [c] => [Tok.lit c]
  | [c, d] => if c = '\\' then [Tok.lit d] else Tok.lit c :: tokenize [d]
  | c :: d :: e :: rest =>
    if c = '\\' then
      if d = 's' ∧ e = '*' then Tok.wsStar :: tokenize rest
      else Tok.lit d :: tokenize (e :: rest)
    else Tok.lit c :: tokenize (d :: e :: rest)

/-- Case-insensitive character comparison, the `re.IGNORECASE` rule used by
the repository (ASCII case folding; every input the program compares is
within ASCII). -/
def eqIC (a b : Char) : Bool := decide (a.toLower = b.toLower)

/-- Greedy whitespace consumption with backtracking for the wildcard token:
try to consume one more whitespace character and continue greedily; on
failure of the longer attempt, hand the current suffix to the
continuation. This is the backtracking behaviour of a greedy
backslash-s-star in CPython `re`. -/
def matchWsStar (k : List Char → Option Nat) : List Char → Option Nat
  | [] => k []
  | ch :: rest =>
    if isWs ch then
      match matchWsStar k rest with
      | some n => some (n + 1)
      | none => k (ch :: rest)
    else k (ch :: rest)

/-- Anchored match of a token pattern at the front of a string, returning
the number of characters the match consumes (the leftmost-greedy match of
CPython `re` for this fragment). -/
def matchLen : List Tok → List Char → Option Nat
  | [], _ => some 0
  | Tok.lit _ :: _, [] => none
  | Tok.lit c :: ts, ch :: rest =>
    if eqIC c ch then (matchLen ts rest).map (· + 1) else none
  | Tok.wsStar :: ts, s => matchWsStar (matchLen ts) s

/-- Python `re.search`: does the pattern match at some position of the
string (scanning positions left to right). -/
def reSearch (ts : List Tok) : List Char → Bool
  | [] => (matchLen ts []).isSome
  | s@(_ :: cs) => (matchLen ts s).isSome || reSearch ts cs

/-- `TextProcessor.is_flexible_match`
(src/src/utils/text_processing.py lines 32-36): build the flexible pattern
from the search term and test it anywhere in the text, case-insensitively. -/
def is_flexible_match (text search_term : List Char) : Bool :=
  reSearch (tokenize (create_flexible_pattern search_term)) text

/-- Python `re.sub` over the emitted fragment: scan left to right, replace
each leftmost non-overlapping match with the replacement (an empty match
emits the replacement and advances one character, as CPython does). The
skip counter drops the characters consumed by the previous match. -/
def reSubAux (ts : List Tok) (rep : List Char) : List Char → Nat → List Char
  | [], skip => if skip = 0 ∧ (matchLen ts []).isSome = true then rep else []
  | _ :: cs, skip + 1 => reSubAux ts rep cs skip
  | s@(c :: cs), 0 =>
    match matchLen ts s with
    | some 0 => rep ++ c :: reSubAux ts rep cs 0
    | some (n + 1) => rep ++ reSubAux ts rep cs n
    | none => c :: reSubAux ts rep cs 0

/-- Case-insensitive regex substitution of a token pattern. -/
def reSub (ts : List Tok) (rep s : List Char) : List Char :=
  reSubAux ts rep s 0

/-- Result record of `apply_fuzzy_replacements`: the dictionary with keys
new_text and replacements returned by the Python function. -/
structure FuzzyResult where
  new_text : List Char
  replacements : List (List Char × List Char)
deriving DecidableEq

/-- One iteration of the loop of `apply_fuzzy_replacements`
(src/src/utils/text_processing.py lines 55-81): skip empty originals;
normalize the running text and the original; if the normalized original is
a substring of the normalized text, do a literal replace of the original on
the unnormalized running text and record the pair; otherwise if the
flexible pattern of the normalized original matches the normalized text,
do a case-insensitive regex substitution on the running text and record
the pair; otherwise leave the state unchanged. -/
def fuzzyStep (acc : FuzzyResult) (pr : List Char × List Char) : FuzzyResult :=
  if pr.1 = [] then acc
  else
    let normalized_text := normalize_text_for_matching acc.new_text
    let normalized_original := normalize_text_for_matching pr.1
    if isSub normalized_original normalized_text = true then
      { new_text := pyReplace pr.1 pr.2 acc.new_text,
        replacements := acc.replacements ++ [pr] }
    else if is_flexible_match normalized_text normalized_original = true then
      { new_text := reSub (tokenize (create_flexible_pattern normalized_original)) pr.2 acc.new_text,
        replacements := acc.replacements ++ [pr] }
    else acc

/-- `TextProcessor.apply_fuzzy_replacements`
(src/src/utils/text_processing.py lines 46-83). -/
def apply_fuzzy_replacements (text : List Char)
    (sorted_replacements : List (List Char × List Char)) : FuzzyResult :=
  sorted_replacements.foldl fuzzyStep { new_text := text, replacements := [] }

example :
    apply_fuzzy_replacements "John   Doe".data [("John Doe".data, "NAME".data)] =
      { new_text := "John   Doe".data,
        replacements := [("John Doe".data, "NAME".data)] } := by decide

example :
    apply_fuzzy_replacements "JOHN DOE".data [("John Doe".data, "NAME".data)] =
      { new_text := "NAME".data,
        replacements := [("John Doe".data, "NAME".data)] } := by decide

example : is_flexible_match "John \t  Doe".data "John Doe".data = true := by decide

/-- A replacement pair (original, replacement) as used throughout the
replacement engine. -/
abbrev RepPair := List Char × List Char

/-- A text run of python-pptx: its text plus the style fields the processor
touches (font size, font name, bold, italic, rgb color), each nullable. -/
structure Run where
  text : List Char
  size : Option Nat
  name : Option (List Char)
  bold : Option Bool
  italic : Option Bool
  color : Option Nat
deriving DecidableEq

/-- A paragraph: an ordered sequence of runs. -/
structure Paragraph where
  runs : List Run
deriving DecidableEq

/-- A text frame: an ordered sequence of paragraphs. -/
structure TextFrame where
  paragraphs : List Paragraph
deriving DecidableEq

/-- The run-level replacement loop of `_apply_replacements_to_text_frame`
(src/src/core/pptx_processor.py lines 361-364): for every pair in order,
when the original is non-empty and occurs in the running text, replace all
its occurrences. -/
def applyPairsToText (sorted_replacements : List RepPair) (t : List Char) : List Char :=
  sorted_replacements.foldl
    (fun acc pr => if pr.1 ≠ [] ∧ isSub pr.1 acc = true then pyReplace pr.1 pr.2 acc else acc) t

/-- The captured style fields: the original_font_size, original_font_name,
original_bold, original_italic, original_color locals of the run-level
branch and the original_font_props dictionary of the fallback branch. -/
structure FontProps where
  size : Option Nat
  name : Option (List Char)
  bold : Option Bool
  italic : Option Bool
  color : Option Nat
deriving DecidableEq

/-- Capture the style fields of a run.  Color capture in the source is
guarded by a try that yields None when the run has no explicit rgb color;
the model's color field already carries exactly that option. -/
def captureProps (r : Run) : FontProps :=
  ⟨r.size, r.name, r.bold, r.italic, r.color⟩

/-- Restore captured style fields onto a run, following the guards of the
source (src/src/core/pptx_processor.py lines 385-397 and 459-471): size and
font name are restored when truthy (non-None and non-zero resp. non-empty),
bold and italic when not None, color when present (an RGBColor value is
always truthy); a color restore failure is swallowed and cannot affect the
other fields, which the model reflects by ordering color last. -/
def restoreProps (p : FontProps) (r : Run) : Run :=
  let r1 := match p.size with
    | some v => if v ≠ 0 then { r with size := some v } else r
    | none => r
  let r2 := match p.name with
    | some nm => if nm ≠ [] then { r1 with name := some nm } else r1
    | none => r1
  let r3 := match p.bold with
    | some b => { r2 with bold := some b }
    | none => r2
  let r4 := match p.italic with
    | some b => { r3 with italic := some b }
    | none => r3
  match p.color with
  | some v => { r4 with color := some v }
  | none => r4

/-- The update of a single run (src/src/core/pptx_processor.py lines
366-399): capture the style fields, set the run's text (the python-pptx
text setter rewrites only the text element of the run, leaving its
formatting properties in place), then reapply the captured fields. -/
def updateRunText (run : Run) (new_text : List Char) : Run :=
  let captured := captureProps run
  restoreProps captured { run with text := new_text }

/-- Phase A treatment of one run: skip runs with empty text; compute the
replaced text; if it differs, update the run and count one replacement for
the run. -/
def processRun (sorted_replacements : List RepPair) (run : Run) : Run × Nat :=
  if run.text = [] then (run, 0)
  else
    let new_text := applyPairsToText sorted_replacements run.text
    if new_text = run.text then (run, 0)
    else (updateRunText run new_text, 1)

/-- Phase A over one paragraph: process each run, keep order, sum counts. -/
def processParagraph (sorted_replacements : List RepPair) (p : Paragraph) : Paragraph × Nat :=
  let results := p.runs.map (processRun sorted_replacements)
  (⟨results.map Prod.fst⟩, (results.map Prod.snd).sum)

/-- Phase A, the run-by-run pass of `_apply_replacements_to_text_frame`
(src/src/core/pptx_processor.py lines 352-399). -/
def phaseA (sorted_replacements : List RepPair) (tf : TextFrame) : TextFrame × Nat :=
  let results := tf.paragraphs.map (processParagraph sorted_replacements)
  (⟨results.map Prod.fst⟩, (results.map Prod.snd).sum)

/-- python-pptx paragraph text: concatenation of its run texts. -/
def paragraphText (p : Paragraph) : List Char :=
  (p.runs.map Run.text).flatten

/-- python-pptx text_frame.text: paragraph texts joined by newline. -/
def frameText (tf : TextFrame) : List Char :=
  List.intercalate ['\n'] (tf.paragraphs.map paragraphText)

/-- The exact whole-text pass of phase B (src/src/core/pptx_processor.py
lines 410-418): literal replace-all per pair in order on the full text,
collecting the pairs that applied. -/
def applyExactToFull (sorted_replacements : List RepPair) (full : List Char) :
    List Char × List RepPair :=
  sorted_replacements.foldl
    (fun acc pr =>
      if pr.1 ≠ [] ∧ isSub pr.1 acc.1 = true then (pyReplace pr.1 pr.2 acc.1, acc.2 ++ [pr])
      else acc)
    (full, [])

/-- Style capture from the first run of the first paragraph
(src/src/core/pptx_processor.py lines 431-449); None when the frame has no
first run, matching the empty (falsy) original_font_props dictionary. -/
def captureFirstRunProps (tf : TextFrame) : Option FontProps :=
  match tf.paragraphs with
  | [] => none
  | p :: _ =>
    match p.runs with
    | [] => none
    | r :: _ => some (captureProps r)

/-- The rewrite of the whole frame in phase B (src/src/core/pptx_processor.py
lines 451-471): clear the frame, put the entire new text on a single run of
the single remaining paragraph (a fresh run has no explicit style fields),
and reapply the captured first-run style to it when it was captured. -/
def rewriteFrame (tf : TextFrame) (new_full_text : List Char) : TextFrame :=
  let props := captureFirstRunProps tf
  let base : Run := ⟨new_full_text, none, none, none, none, none⟩
  let run1 := match props with
    | some ps => restoreProps ps base
    | none => base
  ⟨[⟨[run1]⟩]⟩

/-- Result of processing one text frame: the frame after mutation, the
replacement count returned, and an instrumentation flag recording whether
`apply_fuzzy_replacements` was invoked on the way. -/
structure FrameResult where
  frame : TextFrame
  count : Nat
  usedFuzzy : Bool
deriving DecidableEq

/-- Phase B of `_apply_replacements_to_text_frame`
(src/src/core/pptx_processor.py lines 401-482), entered only when phase A
counted zero: take the full frame text (empty text returns zero); run the
exact whole-text pass; if nothing applied, call the fuzzy fallback and use
its text and applied list; if at least one pair applied and the text
changed, rewrite the frame and return the number of applied pairs. -/
def phaseB (sorted_replacements : List RepPair) (tf : TextFrame) : FrameResult :=
  let full_text := frameText tf
  if full_text = [] then ⟨tf, 0, false⟩
  else
    let exact := applyExactToFull sorted_replacements full_text
    if exact.2 = [] then
      let fz := apply_fuzzy_replacements full_text sorted_replacements
      if fz.replacements ≠ [] ∧ fz.new_text ≠ full_text then
        ⟨rewriteFrame tf fz.new_text, fz.replacements.length, true⟩
      else ⟨tf, 0, true⟩
    else
      if exact.1 ≠ full_text then ⟨rewriteFrame tf exact.1, exact.2.length, false⟩
      else ⟨tf, 0, false⟩

/-- `_apply_replacements_to_text_frame` (src/src/core/pptx_processor.py
lines 324-484): empty frames return zero; otherwise run phase A; when it
made at least one replacement return its result, else fall back to
phase B on the (unchanged) frame. -/
def apply_replacements_to_text_frame (sorted_replacements : List RepPair)
    (tf : TextFrame) : FrameResult :=
  if tf.paragraphs = [] then ⟨tf, 0, false⟩
  else
    let a := phaseA sorted_replacements tf
    if a.2 ≠ 0 then ⟨a.1, a.2, false⟩
    else phaseB sorted_replacements a.1

/-- A slide shape as the replacement engine distinguishes them: a shape
with a text frame, a table of cells (each cell a text frame), a chart
whose optional text frame is processed when present, or any other shape
(for example a picture), which is left alone. -/
inductive Shape where
  | textShape (tf : TextFrame)
  | table (rows : List (List TextFrame))
  | chart (tf : Option TextFrame)
  | picture
deriving DecidableEq

/-- `_apply_replacements_to_table` (src/src/core/pptx_processor.py lines
486-512): every cell of every row is processed as its own text frame. -/
def apply_replacements_to_table (sorted_replacements : List RepPair)
    (rows : List (List TextFrame)) : List (List TextFrame) × Nat :=
  let results := rows.map fun row =>
    row.map fun cell => apply_replacements_to_text_frame sorted_replacements cell
  (results.map (fun row => row.map FrameResult.frame),
   (results.map (fun row => (row.map FrameResult.count).sum)).sum)

/-- `_apply_replacements_to_shape` (src/src/core/pptx_processor.py lines
279-322): text frames first, then tables, then charts with a text frame;
everything else contributes zero. -/
def apply_replacements_to_shape (sorted_replacements : List RepPair) :
    Shape → Shape × Nat
  | Shape.textShape tf =>
    let r := apply_replacements_to_text_frame sorted_replacements tf
    (Shape.textShape r.frame, r.count)
  | Shape.table rows =>
    let r := apply_replacements_to_table sorted_replacements rows
    (Shape.table r.1, r.2)
  | Shape.chart (some tf) =>
    let r := apply_replacements_to_text_frame sorted_replacements tf
    (Shape.chart (some r.frame), r.count)
  | Shape.chart none => (Shape.chart none, 0)
  | Shape.picture => (Shape.picture, 0)

/-- A detection as consumed by the replacement pass.  The source probes for
the field names original/replacement first and text/replacement second; the
model carries the canonical first shape. -/
structure Detection where
  original : List Char
  replacement : List Char
deriving DecidableEq

/-- Descending length of the original: the sort key len(x[0]) with
reverse=True of src/src/core/pptx_processor.py lines 260-262. -/
def repLonger (a b : RepPair) : Prop := b.1.length ≤ a.1.length

instance : DecidableRel repLonger :=
  fun a b => inferInstanceAs (Decidable (b.1.length ≤ a.1.length))

instance : IsTotal RepPair repLonger :=
  ⟨fun a b => Nat.le_total b.1.length a.1.length⟩

instance : IsTrans RepPair repLonger :=
  ⟨fun _ _ _ hab hbc => Nat.le_trans hbc hab⟩

/-- Python `sorted(replacements, key=lambda x: len(x[0]), reverse=True)`:
a stable sort by descending length of the original.  A stable sort is
extensionally unique, so the stable insertion sort below produces exactly
the list CPython's stable sort produces. -/
def sortPairs (l : List RepPair) : List RepPair :=
  l.insertionSort repLonger

/-- A slide: the list of its shapes. -/
abbrev Slide := List Shape

/-- `_apply_replacements_to_slide` (src/src/core/pptx_processor.py lines
229-276): empty detection lists return zero; build pairs, sort them longest
first, then apply them to every shape of the slide, summing counts. -/
def apply_replacements_to_slide (slide : Slide) (detections : List Detection) :
    Slide × Nat :=
  if detections = [] then (slide, 0)
  else
    let replacements := detections.map fun d => (d.original, d.replacement)
    if replacements = [] then (slide, 0)
    else
      let sorted_replacements := sortPairs replacements
      slide.foldr
        (fun sh acc =>
          let r := apply_replacements_to_shape sorted_replacements sh
          (r.1 :: acc.1, r.2 + acc.2))
        ([], 0)

/-- The result dictionary of `apply_replacements_to_file`. -/
structure FileResult where
  success : Bool
  total_replacements : Nat
  replacements_by_slide : List (Nat × Nat)
  error : Option (List Char)
deriving DecidableEq

/-- The slide loop of `apply_replacements_to_file`
(src/src/core/pptx_processor.py lines 189-207): slides are numbered from
idx+1 where idx is the 0-based position; a slide whose number is in the
detections map is processed, any other slide records zero.  Returns the
total, the per-slide counts in order, and the mutated slides. -/
def processSlides (all_detections : Nat → Option (List Detection)) :
    List Slide → Nat → Nat × List (Nat × Nat) × List Slide
  | [], _ => (0, [], [])
  | s :: rest, idx =>
    let slide_number := idx + 1
    let head := match all_detections slide_number with
      | some detections => apply_replacements_to_slide s detections
      | none => (s, 0)
    let tail := processSlides all_detections rest (idx + 1)
    (head.2 + tail.1, (slide_number, head.2) :: tail.2.1, head.1 :: tail.2.2)

/-- `apply_replacements_to_file` (src/src/core/pptx_processor.py lines
161-227).  Loading the presentation and saving it are the two fallible
external operations inside the try block; they are passed as fallible
collaborators.  A failure of either is caught and becomes the structured
failure result with success false, zero total, empty per-slide map and the
error message; otherwise the aggregated counts are returned with success
true. -/
def apply_replacements_to_file (loaded : Except (List Char) (List Slide))
    (all_detections : Nat → Option (List Detection))
    (save : List Slide → Except (List Char) Unit) : FileResult :=
  match loaded with
  | Except.error e => ⟨false, 0, [], some e⟩
  | Except.ok slides =>
    let r := processSlides all_detections slides 0
    match save r.2.2 with
    | Except.error e => ⟨false, 0, [], some e⟩
    | Except.ok _ => ⟨true, r.1, r.2.1, none⟩

example :
    processRun [("555-1234".data, "REDACTED".data)]
      ⟨"Call 555-1234".data, some 18, none, some true, none, none⟩ =
      (⟨"Call REDACTED".data, some 18, none, some true, none, none⟩, 1) := by decide

example :
    applyPairsToText (sortPairs [("Alice".data, "PERSON_B".data), ("Alice Smith".data, "PERSON_A".data)])
      "Alice Smith called Alice".data = "PERSON_A called PERSON_B".data := by decide

theorem restoreProps_captureProps (r : Run) (t : List Char) :
    restoreProps (captureProps r) { r with text := t } = { r with text := t } := by
  rcases r with ⟨t0, s, n, b, i, c⟩
  cases s <;> cases n <;> cases b <;> cases i <;> cases c <;>
    simp [restoreProps, captureProps]

theorem updateRunText_eq (r : Run) (t : List Char) :
    updateRunText r t = { r with text := t } := by
  simp [updateRunText, restoreProps_captureProps]

theorem processRun_style (pairs : List RepPair) (run : Run) :
    ((processRun pairs run).1).size = run.size
    ∧ ((processRun pairs run).1).name = run.name
    ∧ ((processRun pairs run).1).bold = run.bold
    ∧ ((processRun pairs run).1).italic = run.italic
    ∧ ((processRun pairs run).1).color = run.color := by
  by_cases h0 : run.text = []
  · simp [processRun, h0]
  · by_cases h1 : applyPairsToText pairs run.text = run.text
    · simp [processRun, h0, h1]
    · simp [processRun, h0, h1, updateRunText_eq]

/-- C5: a run-level replacement changes only the run's text.  For the run
with text Call 555-1234, bold true and size 18, the pair replacing the
phone number yields text Call REDACTED with bold and size unchanged; in
general the processed run agrees with the original run on every style
field (size, font name, bold, italic, color), since the captured non-null
fields are reapplied after the text is set. -/
theorem c5_run_level_style_preservation :
    (∀ (pairs : List RepPair) (run : Run),
        ((processRun pairs run).1).size = run.size
        ∧ ((processRun pairs run).1).name = run.name
        ∧ ((processRun pairs run).1).bold = run.bold
        ∧ ((processRun pairs run).1).italic = run.italic
        ∧ ((processRun pairs run).1).color = run.color)
    ∧ processRun [("555-1234".data, "REDACTED".data)]
        ⟨"Call 555-1234".data, some 18, none, some true, none, none⟩ =
      (⟨"Call REDACTED".data, some 18, none, some true, none, none⟩, 1) :=
  ⟨processRun_style, by decide⟩

/-- C10: the applied-replacements list of the fuzzy fallback does not imply
mutation.  On text John(3 spaces)Doe with the single pair John Doe to NAME,
the normalized original is a substring of the normalized text, so the pair
is recorded as applied, while the literal original does not occur in the
text, so the literal replace changes nothing: new_text equals the input
exactly and the applied list is non-empty. -/
theorem c10_applied_without_mutation :
    (apply_fuzzy_replacements "John   Doe".data [("John Doe".data, "NAME".data)]).new_text
        = "John   Doe".data
    ∧ (apply_fuzzy_replacements "John   Doe".data
        [("John Doe".data, "NAME".data)]).replacements ≠ []
    ∧ isSub (normalize_text_for_matching "John Doe".data)
        (normalize_text_for_matching "John   Doe".data) = true
    ∧ isSub "John Doe".data "John   Doe".data = false := by decide

/-- C3: evaluation of the code at the failing input of the claim.  On text
John(3 spaces)Doe with pair John Doe to NAME, `apply_fuzzy_replacements`
returns the input text unchanged: the result does not contain NAME and
still contains John and Doe, because the normalized-containment branch
shadows the flexible-matcher branch and then performs a literal replace
that cannot fire across the irregular spacing. -/
theorem c3_fuzzy_whitespace_not_replaced :
    (apply_fuzzy_replacements "John   Doe".data [("John Doe".data, "NAME".data)]).new_text
        = "John   Doe".data
    ∧ isSub "NAME".data
        (apply_fuzzy_replacements "John   Doe".data
          [("John Doe".data, "NAME".data)]).new_text = false
    ∧ isSub "John".data
        (apply_fuzzy_replacements "John   Doe".data
          [("John Doe".data, "NAME".data)]).new_text = true
    ∧ isSub "Doe".data
        (apply_fuzzy_replacements "John   Doe".data
          [("John Doe".data, "NAME".data)]).new_text = true := by decide

theorem filter_orderedInsert_eq (a : RepPair) (l : List RepPair) (n : Nat)
    (h : a.1.length = n) :
    (List.orderedInsert repLonger a l).filter (fun p => p.1.length == n) =
      a :: l.filter (fun p => p.1.length == n) := by
  induction l with
  | nil => simp [List.orderedInsert, h]
  | cons b l ih =>
    by_cases hab : repLonger a b
    · simp [List.orderedInsert, hab, h]
    · have hb : ¬ (b.1.length == n) = true := by
        simp only [beq_iff_eq]
        intro hbn
        exact hab (by simp [repLonger, hbn, h])
      simp [List.orderedInsert, hab, List.filter_cons, hb, ih]

theorem filter_orderedInsert_ne (a : RepPair) (l : List RepPair) (n : Nat)
    (h : a.1.length ≠ n) :
    (List.orderedInsert repLonger a l).filter (fun p => p.1.length == n) =
      l.filter (fun p => p.1.length == n) := by
  induction l with
  | nil => simp [List.orderedInsert, h]
  | cons b l ih =>
    by_cases hab : repLonger a b
    · simp [List.orderedInsert, hab, List.filter_cons, h]
    · simp [List.orderedInsert, hab, List.filter_cons, ih]

theorem sortPairs_stable (l : List RepPair) (n : Nat) :
    (sortPairs l).filter (fun p => p.1.length == n) =
      l.filter (fun p => p.1.length == n) := by
  induction l with
  | nil => rfl
  | cons a l ih =>
    show (List.orderedInsert repLonger a (sortPairs l)).filter _ = _
    by_cases h : a.1.length = n
    · rw [filter_orderedInsert_eq a _ n h, ih, List.filter_cons]
      simp [h]
    · rw [filter_orderedInsert_ne a _ n h, ih, List.filter_cons]
      simp [h]

/-- C1: longest-first safety.  The slide-level replacer sorts the pairs by
descending length of the original with a stable sort — the sorted list is a
permutation of the input, is pairwise ordered by descending length, and
pairs of equal length keep their relative order (the filter at each length
is unchanged) — and applying the sorted pairs in order to the text
Alice Smith called Alice with pairs Alice Smith to PERSON_A and Alice to
PERSON_B yields PERSON_A called PERSON_B. -/
theorem c1_longest_first_safety :
    (∀ l : List RepPair,
        (sortPairs l).Perm l
        ∧ (sortPairs l).Sorted repLonger
        ∧ ∀ n : Nat,
            (sortPairs l).filter (fun p => p.1.length == n) =
              l.filter (fun p => p.1.length == n))
    ∧ applyPairsToText
        (sortPairs [("Alice Smith".data, "PERSON_A".data), ("Alice".data, "PERSON_B".data)])
        "Alice Smith called Alice".data = "PERSON_A called PERSON_B".data :=
  ⟨fun l => ⟨List.perm_insertionSort repLonger l,
             List.sorted_insertionSort repLonger l,
             sortPairs_stable l⟩,
   by decide⟩

theorem phaseA_nil_count (pairs : List RepPair) (tf : TextFrame)
    (h : tf.paragraphs = []) : (phaseA pairs tf).2 = 0 := by
  simp [phaseA, h]

/-- C2: fallback monotonicity.  Whenever phase A made at least one
replacement in a text frame, the whole-container fallback is skipped: the
fuzzy fallback is never invoked (the instrumentation flag stays false) and
the returned frame and count are exactly the run-level result. -/
theorem c2_fallback_monotonicity (pairs : List RepPair) (tf : TextFrame)
    (h : 1 ≤ (phaseA pairs tf).2) :
    (apply_replacements_to_text_frame pairs tf).usedFuzzy = false
    ∧ apply_replacements_to_text_frame pairs tf =
        ⟨(phaseA pairs tf).1, (phaseA pairs tf).2, false⟩ := by
  have hp : tf.paragraphs ≠ [] := by
    intro hnil
    have := phaseA_nil_count pairs tf hnil
    omega
  have ha : ¬ (phaseA pairs tf).2 = 0 := by omega
  refine ⟨?_, ?_⟩ <;> simp [apply_replacements_to_text_frame, hp, ha]

/-- Witness for C2 at a concrete frame: one run containing Alice and the
pair Alice to X make phase A count one replacement, and the processed frame
reports no fuzzy use. -/
theorem c2_fallback_monotonicity_witness :
    1 ≤ (phaseA [("Alice".data, "X".data)]
          ⟨[⟨[⟨"Alice".data, none, none, none, none, none⟩]⟩]⟩).2
    ∧ (apply_replacements_to_text_frame [("Alice".data, "X".data)]
          ⟨[⟨[⟨"Alice".data, none, none, none, none, none⟩]⟩]⟩).usedFuzzy = false :=
  ⟨by decide, (c2_fallback_monotonicity _ _ (by decide)).1⟩

/-- Enumerate a list with indices starting at a given number. -/
def enumFrom {α : Type} : Nat → List α → List (Nat × α)
  | _, [] => []
  | n, a :: l => (n, a) :: enumFrom (n + 1) l

/-- Lookup in the per-slide association list (the Python dictionary keyed
by slide number contains each slide number exactly once). -/
def lookupCount : List (Nat × Nat) → Nat → Option Nat
  | [], _ => none
  | p :: rest, k => if p.1 = k then some p.2 else lookupCount rest k

/-- The replacement count a slide contributes: the per-slide count when its
1-based number is in the detections map, zero otherwise. -/
def slideRepl (all_detections : Nat → Option (List Detection)) (s : Slide)
    (num : Nat) : Nat :=
  match all_detections num with
  | some detections => (apply_replacements_to_slide s detections).2
  | none => 0

theorem processSlides_spec (dets : Nat → Option (List Detection)) :
    ∀ (slides : List Slide) (idx : Nat),
      (processSlides dets slides idx).2.1 =
        (enumFrom (idx + 1) slides).map (fun p => (p.1, slideRepl dets p.2 p.1))
      ∧ (processSlides dets slides idx).1 =
        ((enumFrom (idx + 1) slides).map (fun p => slideRepl dets p.2 p.1)).sum := by
  intro slides
  induction slides with
  | nil => intro idx; simp [processSlides, enumFrom]
  | cons s rest ih =>
    intro idx
    have hh := ih (idx + 1)
    cases hd : dets (idx + 1) <;>
      simp [processSlides, enumFrom, slideRepl, hd, hh.1, hh.2]

theorem processSlides_lookup (dets : Nat → Option (List Detection)) :
    ∀ (slides : List Slide) (idx i : Nat) (h : i < slides.length),
      lookupCount (processSlides dets slides idx).2.1 (idx + i + 1) =
        some (slideRepl dets (slides.get ⟨i, h⟩) (idx + i + 1)) := by
  intro slides
  induction slides with
  | nil => intro idx i h; simp at h
  | cons s rest ih =>
    intro idx i h
    cases i with
    | zero =>
      cases hd : dets (idx + 1) <;>
        simp [processSlides, lookupCount, slideRepl, hd]
    | succ i =>
      have hne : ¬ (idx + 1 = idx + 1 + i + 1) := by omega
      have hlt : i < rest.length := Nat.lt_of_succ_lt_succ (by simpa using h)
      have hget : (s :: rest).get ⟨i + 1, h⟩ = rest.get ⟨i, hlt⟩ := rfl
      have harith : idx + (i + 1) + 1 = idx + 1 + i + 1 := by omega
      simp only [processSlides, lookupCount, hget, harith]
      rw [if_neg hne]
      exact ih (idx + 1) i hlt

/-- C9: document-level error atomicity.  When loading fails, or saving
fails, `apply_replacements_to_file` returns the structured failure result
with success false, zero total, an empty per-slide map and the error
message, propagating no exception; when neither fails it returns success
true with no error. -/
theorem c9_document_error_atomicity :
    (∀ (dets : Nat → Option (List Detection))
        (save : List Slide → Except (List Char) Unit) (e : List Char),
        apply_replacements_to_file (Except.error e) dets save =
          ⟨false, 0, [], some e⟩)
    ∧ (∀ (dets : Nat → Option (List Detection))
        (save : List Slide → Except (List Char) Unit)
        (slides : List Slide) (e : List Char),
        save (processSlides dets slides 0).2.2 = Except.error e →
        apply_replacements_to_file (Except.ok slides) dets save =
          ⟨false, 0, [], some e⟩)
    ∧ (∀ (dets : Nat → Option (List Detection))
        (save : List Slide → Except (List Char) Unit) (slides : List Slide),
        save (processSlides dets slides 0).2.2 = Except.ok () →
        apply_replacements_to_file (Except.ok slides) dets save =
          ⟨true, (processSlides dets slides 0).1,
            (processSlides dets slides 0).2.1, none⟩) := by
  refine ⟨fun dets save e => rfl, fun dets save slides e h => ?_, fun dets save slides h => ?_⟩ <;>
    simp [apply_replacements_to_file, h]

/-- The empty detections map. -/
def noDetections : Nat → Option (List Detection) := fun _ => none

/-- A save collaborator that always succeeds. -/
def saveOk : List Slide → Except (List Char) Unit := fun _ => Except.ok ()

/-- Witness for C9 at concrete inputs: a failing load returns the failure
record, and a successful save of the empty document returns success. -/
theorem c9_document_error_atomicity_witness :
    apply_replacements_to_file (Except.error "boom".data) noDetections saveOk =
      ⟨false, 0, [], some "boom".data⟩
    ∧ saveOk (processSlides noDetections [] 0).2.2 = Except.ok ()
    ∧ apply_replacements_to_file (Except.ok []) noDetections saveOk =
      ⟨true, (processSlides noDetections [] 0).1,
        (processSlides noDetections [] 0).2.1, none⟩ :=
  ⟨c9_document_error_atomicity.1 noDetections saveOk "boom".data,
   rfl,
   c9_document_error_atomicity.2.2 noDetections saveOk [] rfl⟩

/-- C6: aggregate correctness of the document-level pass.  On a successful
run, the total is the sum of the per-slide counts, the per-slide map lists
every 1-based slide number with exactly the count that slide yielded, a
slide whose number is absent from the detections map contributes zero, and
looking up slide k in the result gives r_k for every k from 1 to N. -/
theorem c6_aggregate_correctness
    (slides : List Slide) (dets : Nat → Option (List Detection))
    (save : List Slide → Except (List Char) Unit)
    (hsave : save (processSlides dets slides 0).2.2 = Except.ok ()) :
    (apply_replacements_to_file (Except.ok slides) dets save).success = true
    ∧ (apply_replacements_to_file (Except.ok slides) dets save).total_replacements =
        ((enumFrom 1 slides).map (fun p => slideRepl dets p.2 p.1)).sum
    ∧ (apply_replacements_to_file (Except.ok slides) dets save).replacements_by_slide =
        (enumFrom 1 slides).map (fun p => (p.1, slideRepl dets p.2 p.1))
    ∧ ∀ (i : Nat) (h : i < slides.length),
        lookupCount
          (apply_replacements_to_file (Except.ok slides) dets save).replacements_by_slide
          (i + 1) = some (slideRepl dets (slides.get ⟨i, h⟩) (i + 1)) := by
  have hfile := c9_document_error_atomicity.2.2 dets save slides hsave
  have hspec := processSlides_spec dets slides 0
  refine ⟨by rw [hfile], ?_, ?_, ?_⟩
  · rw [hfile]
    simpa using hspec.2
  · rw [hfile]
    simpa using hspec.1
  · intro i h
    rw [hfile]
    have := processSlides_lookup dets slides 0 i h
    simpa using this

/-- A two-slide document used as the concrete witness for C6: the first
slide holds one run containing Alice, the second slide is empty. -/
def witSlides : List Slide :=
  [[Shape.textShape ⟨[⟨[⟨"Alice".data, none, none, none, none, none⟩]⟩]⟩], []]

/-- A detections map assigning one detection to slide 1 and nothing else. -/
def witDets : Nat → Option (List Detection) :=
  fun k => if k = 1 then some [⟨"Alice".data, "X".data⟩] else none

/-- Witness for C6 on the two-slide document: save succeeds and the
aggregate equalities hold, with the slide-1 lookup produced by the theorem
at index 0. -/
theorem c6_aggregate_correctness_witness :
    saveOk (processSlides witDets witSlides 0).2.2 = Except.ok ()
    ∧ (apply_replacements_to_file (Except.ok witSlides) witDets saveOk).success = true
    ∧ (apply_replacements_to_file (Except.ok witSlides) witDets saveOk).total_replacements =
        ((enumFrom 1 witSlides).map (fun p => slideRepl witDets p.2 p.1)).sum
    ∧ (apply_replacements_to_file (Except.ok witSlides) witDets saveOk).replacements_by_slide =
        (enumFrom 1 witSlides).map (fun p => (p.1, slideRepl witDets p.2 p.1))
    ∧ lookupCount
        (apply_replacements_to_file (Except.ok witSlides) witDets saveOk).replacements_by_slide
        1 = some (slideRepl witDets (witSlides.get ⟨0, by decide⟩) 1) :=
  ⟨rfl,
   (c6_aggregate_correctness witSlides witDets saveOk rfl).1,
   (c6_aggregate_correctness witSlides witDets saveOk rfl).2.1,
   (c6_aggregate_correctness witSlides witDets saveOk rfl).2.2.1,
   (c6_aggregate_correctness witSlides witDets saveOk rfl).2.2.2 0 (by decide)⟩

/-- The head of the list, when present, is not whitespace. -/
def headNonWs : List Char → Bool
  | [] => true
  | c :: _ => !isWs c

/-- The last element of the list, when present, is not whitespace. -/
def lastNonWs : List Char → Bool
  | [] => true
  | [c] => !isWs c
  | _ :: d :: rest => lastNonWs (d :: rest)

/-- No two adjacent characters are both whitespace. -/
def noAdjWs : List Char → Bool
  | c :: d :: rest => (!(isWs c && isWs d)) && noAdjWs (d :: rest)
  | _ => true

/-- Every whitespace character of the list is the plain space. -/
def wsOnlySp (l : List Char) : Bool := l.all (fun c => !isWs c || c == ' ')

theorem lastNonWs_cons_of_ne (x : Char) (ys : List Char) (h : ys ≠ []) :
    lastNonWs (x :: ys) = lastNonWs ys := by
  cases ys with
  | nil => exact absurd rfl h
  | cons y t => rfl

theorem headNonWs_append_left (xs ys : List Char) (h : xs ≠ []) :
    headNonWs (xs ++ ys) = headNonWs xs := by
  cases xs with
  | nil => exact absurd rfl h
  | cons c t => rfl

theorem headNonWs_reverse : ∀ l : List Char, headNonWs l.reverse = lastNonWs l
  | [] => rfl
  | [c] => rfl
  | c :: d :: rest => by
    have h1 : (c :: d :: rest).reverse = (d :: rest).reverse ++ [c] := by simp
    rw [h1, headNonWs_append_left _ _ (by simp), headNonWs_reverse (d :: rest),
      lastNonWs_cons_of_ne c (d :: rest) (by simp)]

theorem lastNonWs_reverse (l : List Char) : lastNonWs l.reverse = headNonWs l := by
  rw [← headNonWs_reverse l.reverse, List.reverse_reverse]

theorem headNonWs_dropWhile : ∀ l : List Char, headNonWs (l.dropWhile isWs) = true
  | [] => rfl
  | c :: rest => by
    by_cases h : isWs c = true
    · simp only [List.dropWhile_cons, h, if_true]
      exact headNonWs_dropWhile rest
    · simp [List.dropWhile_cons, h, headNonWs]

theorem lastNonWs_dropWhile : ∀ l : List Char, lastNonWs l = true →
    lastNonWs (l.dropWhile isWs) = true
  | [], _ => rfl
  | c :: rest, h => by
    by_cases hc : isWs c = true
    · cases rest with
      | nil => simp [List.dropWhile_cons, hc, lastNonWs]
      | cons d t =>
        rw [List.dropWhile_cons, if_pos hc]
        exact lastNonWs_dropWhile (d :: t) h
    · simpa [List.dropWhile_cons, hc] using h

theorem dropWhile_of_headNonWs (l : List Char) (h : headNonWs l = true) :
    l.dropWhile isWs = l := by
  cases l with
  | nil => rfl
  | cons c rest =>
    have hc : isWs c = false := by simpa [headNonWs] using h
    simp [List.dropWhile_cons, hc]

theorem stripWs_of_inv (l : List Char) (hh : headNonWs l = true)
    (hl : lastNonWs l = true) : stripWs l = l := by
  unfold stripWs
  rw [dropWhile_of_headNonWs l hh,
    dropWhile_of_headNonWs l.reverse (by rw [headNonWs_reverse]; exact hl),
    List.reverse_reverse]

theorem headNonWs_stripWs (s : List Char) : headNonWs (stripWs s) = true := by
  unfold stripWs
  rw [headNonWs_reverse]
  apply lastNonWs_dropWhile
  rw [lastNonWs_reverse]
  exact headNonWs_dropWhile s

theorem lastNonWs_stripWs (s : List Char) : lastNonWs (stripWs s) = true := by
  unfold stripWs
  rw [lastNonWs_reverse]
  exact headNonWs_dropWhile _

theorem collapseWs_ne_nil : ∀ l : List Char, l ≠ [] → collapseWs l ≠ []
  | [], h => absurd rfl h
  | [c], _ => by by_cases h : isWs c = true <;> simp [collapseWs, h]
  | c :: d :: rest, _ => by
    by_cases h : (isWs c && isWs d) = true
    · simpa [collapseWs, h] using collapseWs_ne_nil (d :: rest) (by simp)
    · simp [collapseWs, h]

theorem noAdjWs_cons (x : Char) (ys : List Char) :
    noAdjWs (x :: ys) = ((!isWs x || headNonWs ys) && noAdjWs ys) := by
  cases ys with
  | nil => simp [noAdjWs, headNonWs]
  | cons y t => simp [noAdjWs, headNonWs, Bool.not_and]

theorem wsOnlySp_cons (c : Char) (l : List Char) :
    wsOnlySp (c :: l) = ((!isWs c || c == ' ') && wsOnlySp l) := by
  simp [wsOnlySp]

theorem collapseWs_inv : ∀ l : List Char,
    wsOnlySp (collapseWs l) = true
    ∧ noAdjWs (collapseWs l) = true
    ∧ (headNonWs l = true → headNonWs (collapseWs l) = true)
    ∧ (lastNonWs l = true → lastNonWs (collapseWs l) = true)
  | [] => ⟨rfl, rfl, fun h => h, fun h => h⟩
  | [c] => by
    by_cases h : isWs c = true
    · have hc : collapseWs [c] = [' '] := by simp [collapseWs, h]
      refine ⟨by rw [hc]; decide, by rw [hc]; decide, ?_, ?_⟩
      · intro hh; exact absurd hh (by simp [headNonWs, h])
      · intro hl; exact absurd hl (by simp [lastNonWs, h])
    · have hc : collapseWs [c] = [c] := by simp [collapseWs, h]
      exact ⟨by rw [hc]; simp [wsOnlySp, h], by rw [hc]; rfl,
        fun hh => by rw [hc]; exact hh, fun hl => by rw [hc]; exact hl⟩
  | c :: d :: rest => by
    have IH := collapseWs_inv (d :: rest)
    by_cases h : (isWs c && isWs d) = true
    · have hc : collapseWs (c :: d :: rest) = collapseWs (d :: rest) := by
        simp [collapseWs, h]
      have hcws : isWs c = true := by
        have h2 := h
        simp at h2
        exact h2.1
      refine ⟨hc ▸ IH.1, hc ▸ IH.2.1, ?_, ?_⟩
      · intro hh; exact absurd hh (by simp [headNonWs, hcws])
      · intro hl
        rw [hc]
        exact IH.2.2.2 (by rwa [lastNonWs_cons_of_ne c (d :: rest) (by simp)] at hl)
    · have hc : collapseWs (c :: d :: rest) =
          (if isWs c then ' ' else c) :: collapseWs (d :: rest) := by
        simp [collapseWs, h]
      have hxws : isWs (if isWs c then ' ' else c) = isWs c := by
        by_cases hcw : isWs c = true
        · rw [if_pos hcw, hcw]
          decide
        · simp [hcw]
      have hxsp : (!isWs (if isWs c then ' ' else c) || (if isWs c then ' ' else c) == ' ')
          = true := by
        by_cases hcw : isWs c = true <;> simp [hcw]
      refine ⟨?_, ?_, ?_, ?_⟩
      · simp [hc, wsOnlySp_cons, hxsp, IH.1]
      · rw [hc, noAdjWs_cons]
        have hd : (!isWs (if isWs c then ' ' else c)
            || headNonWs (collapseWs (d :: rest))) = true := by
          by_cases hcw : isWs c = true
          · have hdws : isWs d = false := by
              cases hdw : isWs d
              · rfl
              · exact absurd (by simp [hcw, hdw]) h
            have hcol : headNonWs (collapseWs (d :: rest)) = true :=
              IH.2.2.1 (by simp [headNonWs, hdws])
            simp [hcol]
          · simp [hxws, hcw]
        simp [hd, IH.2.1]
      · intro hh
        have hcw : isWs c = false := by simpa [headNonWs] using hh
        rw [hc]
        simp [headNonWs, hxws, hcw]
      · intro hl
        rw [hc]
        have h1 : lastNonWs (d :: rest) = true := by
          rwa [lastNonWs_cons_of_ne c (d :: rest) (by simp)] at hl
        rw [lastNonWs_cons_of_ne _ _ (collapseWs_ne_nil (d :: rest) (by simp))]
        exact IH.2.2.2 h1

theorem collapseWs_id : ∀ l : List Char, wsOnlySp l = true → noAdjWs l = true →
    collapseWs l = l
  | [], _, _ => rfl
  | [c], hsp, _ => by
    have h1 : isWs c = false ∨ c = ' ' := by simpa [wsOnlySp] using hsp
    by_cases h : isWs c = true
    · rcases h1 with h2 | h2
      · exact absurd h (by simp [h2])
      · simp [collapseWs, h, h2]
    · simp [collapseWs, h]
  | c :: d :: rest, hsp, hadj => by
    have h1 : (isWs c = false ∨ c = ' ') ∧ wsOnlySp (d :: rest) = true := by
      have h0 := hsp
      rw [wsOnlySp_cons] at h0
      simpa using h0
    have h2 : (isWs c = false ∨ isWs d = false) ∧ noAdjWs (d :: rest) = true := by
      have h0 : ((!(isWs c && isWs d)) && noAdjWs (d :: rest)) = true := hadj
      simpa using h0
    have hnb : (isWs c && isWs d) = false := by
      rcases h2.1 with h3 | h3 <;> simp [h3]
    have hrec := collapseWs_id (d :: rest) h1.2 h2.2
    by_cases h : isWs c = true
    · rcases h1.1 with h3 | h3
      · exact absurd h (by simp [h3])
      · subst h3
        simp [collapseWs, hnb, hrec]
    · simp [collapseWs, hnb, h, hrec]

theorem replSpecial_idem (c : Char) : replSpecial (replSpecial c) = replSpecial c := by
  by_cases h1 : c = '\xa0'
  · subst h1; decide
  by_cases h2 : c = '–'
  · subst h2; decide
  by_cases h3 : c = '—'
  · subst h3; decide
  by_cases h4 : c = '“'
  · subst h4; decide
  by_cases h5 : c = '”'
  · subst h5; decide
  by_cases h6 : c = '‘'
  · subst h6; decide
  by_cases h7 : c = '’'
  · subst h7; decide
  simp [replSpecial, h1, h2, h3, h4, h5, h6, h7]

theorem isWs_replSpecial (c : Char) (h : isWs c = false) :
    isWs (replSpecial c) = false := by
  by_cases h1 : c = '\xa0'
  · subst h1; exact absurd h (by decide)
  by_cases h2 : c = '–'
  · subst h2; decide
  by_cases h3 : c = '—'
  · subst h3; decide
  by_cases h4 : c = '“'
  · subst h4; decide
  by_cases h5 : c = '”'
  · subst h5; decide
  by_cases h6 : c = '‘'
  · subst h6; decide
  by_cases h7 : c = '’'
  · subst h7; decide
  rw [show replSpecial c = c from by simp [replSpecial, h1, h2, h3, h4, h5, h6, h7]]
  exact h

theorem map_replSpecial_idem (l : List Char) :
    (l.map replSpecial).map replSpecial = l.map replSpecial := by
  induction l with
  | nil => rfl
  | cons c t ih => simp [replSpecial_idem, ih]

theorem headNonWs_map (l : List Char) (h : headNonWs l = true) :
    headNonWs (l.map replSpecial) = true := by
  cases l with
  | nil => rfl
  | cons c t =>
    have hc : isWs c = false := by simpa [headNonWs] using h
    simp [headNonWs, isWs_replSpecial c hc]

theorem lastNonWs_map (l : List Char) (h : lastNonWs l = true) :
    lastNonWs (l.map replSpecial) = true := by
  have hrev : (l.map replSpecial).reverse = l.reverse.map replSpecial := by simp
  rw [← headNonWs_reverse, hrev]
  exact headNonWs_map l.reverse (by rw [headNonWs_reverse]; exact h)

theorem wsOnlySp_map (l : List Char) (h : wsOnlySp l = true) :
    wsOnlySp (l.map replSpecial) = true := by
  induction l with
  | nil => rfl
  | cons c t ih =>
    have h0 : (isWs c = false ∨ c = ' ') ∧ wsOnlySp t = true := by
      have h1 := h
      rw [wsOnlySp_cons] at h1
      simpa using h1
    rw [List.map_cons, wsOnlySp_cons]
    have hc : (!isWs (replSpecial c) || replSpecial c == ' ') = true := by
      rcases h0.1 with h2 | h2
      · simp [isWs_replSpecial c h2]
      · subst h2; decide
    simp [hc, ih h0.2]

theorem noAdjWs_map (l : List Char) (hsp : wsOnlySp l = true) (h : noAdjWs l = true) :
    noAdjWs (l.map replSpecial) = true := by
  induction l with
  | nil => rfl
  | cons c t ih =>
    have hsp0 : (isWs c = false ∨ c = ' ') ∧ wsOnlySp t = true := by
      have h1 := hsp
      rw [wsOnlySp_cons] at h1
      simpa using h1
    have h0 : (isWs c = false ∨ headNonWs t = true) ∧ noAdjWs t = true := by
      have h1 := h
      rw [noAdjWs_cons] at h1
      simpa using h1
    rw [List.map_cons, noAdjWs_cons]
    have hfst : (!isWs (replSpecial c) || headNonWs (t.map replSpecial)) = true := by
      rcases h0.1 with h2 | h2
      · simp [isWs_replSpecial c h2]
      · simp [headNonWs_map t h2]
    simp [hfst, ih hsp0.2 h0.2]

theorem normalize_inv (s : List Char) :
    wsOnlySp (normalize_text_for_matching s) = true
    ∧ noAdjWs (normalize_text_for_matching s) = true
    ∧ headNonWs (normalize_text_for_matching s) = true
    ∧ lastNonWs (normalize_text_for_matching s) = true := by
  have hcol := collapseWs_inv (stripWs s)
  have hh := hcol.2.2.1 (headNonWs_stripWs s)
  have hl := hcol.2.2.2 (lastNonWs_stripWs s)
  exact ⟨wsOnlySp_map _ hcol.1, noAdjWs_map _ hcol.1 hcol.2.1,
    headNonWs_map _ hh, lastNonWs_map _ hl⟩

/-- C7: idempotence of the normalizer.  For every string s, normalizing
twice equals normalizing once — the output of the normalizer is already
stripped, has only single spaces as whitespace, and contains no special
characters, so a second pass changes nothing.  (Purity holds by
construction: the Lean model is a function of its input alone.) -/
theorem c7_normalize_idempotent : ∀ s : List Char,
    normalize_text_for_matching (normalize_text_for_matching s) =
      normalize_text_for_matching s := by
  intro s
  have hinv := normalize_inv s
  show (collapseWs (stripWs (normalize_text_for_matching s))).map replSpecial = _
  rw [stripWs_of_inv _ hinv.2.2.1 hinv.2.2.2,
    collapseWs_id _ hinv.1 hinv.2.1]
  exact map_replSpecial_idem _

/-- Counterexample to C8 as stated: the input with a leading and a trailing
space around the letter a normalizes to the bare letter, not to the letter
surrounded by one space on each side — boundary whitespace is stripped
away, not collapsed to a single space. -/
theorem c8_counterexample :
    normalize_text_for_matching " a ".data = "a".data
    ∧ normalize_text_for_matching " a ".data ≠ " a ".data := by decide

theorem dropWhile_append_allWs (xs ys : List Char) (h : xs.all isWs = true) :
    (xs ++ ys).dropWhile isWs = ys.dropWhile isWs := by
  induction xs with
  | nil => rfl
  | cons c t ih =>
    have h0 : isWs c = true ∧ t.all isWs = true := by simpa using h
    simp [List.dropWhile_cons, h0.1, ih h0.2]

/-- C8 as amended: the normalizer removes a leading and a trailing
whitespace run entirely (it does not leave a single space at either
boundary) and collapses each internal run to a single space: prepending
and appending any all-whitespace strings to a text whose first and last
characters are not whitespace leaves its normalization unchanged. -/
theorem c8_boundary_whitespace (pre core suf : List Char)
    (hpre : pre.all isWs = true) (hsuf : suf.all isWs = true)
    (hh : headNonWs core = true) (hl : lastNonWs core = true) :
    normalize_text_for_matching (pre ++ core ++ suf) =
      normalize_text_for_matching core := by
  have hstrip : stripWs (pre ++ core ++ suf) = core := by
    unfold stripWs
    rw [List.append_assoc, dropWhile_append_allWs pre _ hpre]
    cases core with
    | nil =>
      have h1 : suf.dropWhile isWs = [] := by
        have h2 := dropWhile_append_allWs suf [] hsuf
        simpa using h2
      simp [h1]
    | cons c t =>
      have hc : isWs c = false := by simpa [headNonWs] using hh
      rw [show ((c :: t) ++ suf).dropWhile isWs = (c :: t) ++ suf from by
        simp [List.dropWhile_cons, hc]]
      rw [List.reverse_append,
        dropWhile_append_allWs suf.reverse _ (by simpa using hsuf),
        dropWhile_of_headNonWs (c :: t).reverse (by rw [headNonWs_reverse]; exact hl),
        List.reverse_reverse]
  calc normalize_text_for_matching (pre ++ core ++ suf)
      = (collapseWs (stripWs (pre ++ core ++ suf))).map replSpecial := rfl
    _ = (collapseWs core).map replSpecial := by rw [hstrip]
    _ = (collapseWs (stripWs core)).map replSpecial := by
        rw [stripWs_of_inv core hh hl]
    _ = normalize_text_for_matching core := rfl

/-- Witness for the amended C8 at the concrete input with one leading and
one trailing space around the letter a. -/
theorem c8_boundary_whitespace_witness :
    " ".data.all isWs = true
    ∧ headNonWs "a".data = true
    ∧ lastNonWs "a".data = true
    ∧ normalize_text_for_matching (" ".data ++ "a".data ++ " ".data) =
        normalize_text_for_matching "a".data :=
  ⟨by decide, by decide, by decide,
   c8_boundary_whitespace " ".data "a".data " ".data
     (by decide) (by decide) (by decide) (by decide)⟩

/-- Whether a string starts with a plain space. -/
def headIsSpace : List Char → Bool
  | [] => false
  | c :: _ => c == ' '

theorem pySpecial_ne_backslash (c : Char) (h : pySpecial c = false) : c ≠ '\\' := by
  intro hc
  subst hc
  exact absurd h (by decide)

theorem pySpecial_ne_s (c : Char) (h : pySpecial c = true) : c ≠ 's' := by
  intro hc
  subst hc
  exact absurd h (by decide)

theorem reEscape_append (a b : List Char) :
    reEscape (a ++ b) = reEscape a ++ reEscape b := by
  simp [reEscape]

theorem headIsSpace_reEscape_append (w rest : List Char) (hw : ∀ c ∈ w, c ≠ ' ')
    (hr : headIsSpace rest = false) : headIsSpace (reEscape w ++ rest) = false := by
  cases w with
  | nil => simpa [reEscape] using hr
  | cons c t =>
    by_cases hs : pySpecial c = true
    · simp [reEscape, hs, headIsSpace]
    · have hc : c ≠ ' ' := hw c (by simp)
      simp [reEscape, hs, headIsSpace, hc]

theorem pyRepAux_step_nomatch (x : Char) (cs : List Char)
    (h : isPre ['\\', ' '] (x :: cs) = false) :
    pyRepAux ['\\', ' '] ['\\', 's', '*'] (x :: cs) 0 =
      x :: pyRepAux ['\\', ' '] ['\\', 's', '*'] cs 0 := by
  simp [pyRepAux, h]

theorem isPre_escSp_of_ne (x : Char) (cs : List Char) (h : x ≠ '\\') :
    isPre ['\\', ' '] (x :: cs) = false := by
  have h1 : ¬ ('\\' = x) := fun he => h he.symm
  simp [isPre, h1]

theorem isPre_escSp_snd (cs : List Char) (h : headIsSpace cs = false) :
    isPre ['\\', ' '] ('\\' :: cs) = false := by
  cases cs with
  | nil => decide
  | cons y t =>
    have hy : ¬ (' ' = y) := by
      intro he
      simp [headIsSpace, ← he] at h
    simp [isPre, hy]

theorem pyRepAux_escSp_match (rest : List Char) :
    pyRepAux ['\\', ' '] ['\\', 's', '*'] ('\\' :: ' ' :: rest) 0 =
      '\\' :: 's' :: '*' :: pyRepAux ['\\', ' '] ['\\', 's', '*'] rest 0 := by
  simp [pyRepAux, isPre]

theorem pyRepAux_reEscape : ∀ (w rest : List Char),
    (∀ c ∈ w, c ≠ ' ') → headIsSpace rest = false →
    pyRepAux ['\\', ' '] ['\\', 's', '*'] (reEscape w ++ rest) 0 =
      reEscape w ++ pyRepAux ['\\', ' '] ['\\', 's', '*'] rest 0
  | [], rest, _, _ => by simp [reEscape]
  | c :: t, rest, hw, hr => by
    have hc : c ≠ ' ' := hw c (by simp)
    have hw' : ∀ x ∈ t, x ≠ ' ' := fun x hx => hw x (List.mem_cons_of_mem c hx)
    have htail : headIsSpace (reEscape t ++ rest) = false :=
      headIsSpace_reEscape_append t rest hw' hr
    have ih := pyRepAux_reEscape t rest hw' hr
    by_cases hs : pySpecial c = true
    · have hre : reEscape (c :: t) = '\\' :: c :: reEscape t := by simp [reEscape, hs]
      rw [hre]
      show pyRepAux _ _ ('\\' :: c :: (reEscape t ++ rest)) 0 = _
      rw [pyRepAux_step_nomatch '\\' _
        (isPre_escSp_snd _ (by simp [headIsSpace, hc]))]
      by_cases hcb : c = '\\'
      · subst hcb
        rw [pyRepAux_step_nomatch '\\' _ (isPre_escSp_snd _ htail), ih]
        simp
      · rw [pyRepAux_step_nomatch c _ (isPre_escSp_of_ne c _ hcb), ih]
        simp
    · have hre : reEscape (c :: t) = c :: reEscape t := by simp [reEscape, hs]
      rw [hre]
      show pyRepAux _ _ (c :: (reEscape t ++ rest)) 0 = _
      rw [pyRepAux_step_nomatch c _
        (isPre_escSp_of_ne c _ (pySpecial_ne_backslash c (by simpa using hs))), ih]
      simp

theorem intercalate_singleton {α : Type} (sep a : List α) :
    List.intercalate sep [a] = a := by
  simp [List.intercalate]

theorem intercalate_cons₂ {α : Type} (sep a b : List α) (l : List (List α)) :
    List.intercalate sep (a :: b :: l) = a ++ sep ++ List.intercalate sep (b :: l) := by
  simp [List.intercalate, List.intersperse_cons_cons]

theorem create_flexible_pattern_words : ∀ (w : List Char) (ws : List (List Char)),
    (∀ c ∈ w, c ≠ ' ') → (∀ u ∈ ws, ∀ c ∈ u, c ≠ ' ') →
    create_flexible_pattern (List.intercalate [' '] (w :: ws)) =
      List.intercalate ['\\', 's', '*'] ((w :: ws).map reEscape)
  | w, [], hw, _ => by
    rw [intercalate_singleton, List.map_cons, List.map_nil, intercalate_singleton]
    show pyRepAux ['\\', ' '] ['\\', 's', '*'] (reEscape w) 0 = reEscape w
    have h := pyRepAux_reEscape w [] hw rfl
    simpa [pyRepAux] using h
  | w, w1 :: ws', hw, hws => by
    have hw1 : ∀ c ∈ w1, c ≠ ' ' := hws w1 (by simp)
    have hws' : ∀ u ∈ ws', ∀ c ∈ u, c ≠ ' ' := fun u hu => hws u (List.mem_cons_of_mem w1 hu)
    have ih := create_flexible_pattern_words w1 ws' hw1 hws'
    rw [intercalate_cons₂]
    show pyRepAux _ _ (reEscape (w ++ [' '] ++ List.intercalate [' '] (w1 :: ws'))) 0 = _
    rw [reEscape_append, reEscape_append,
      show reEscape [' '] = ['\\', ' '] from rfl, List.append_assoc,
      pyRepAux_reEscape w _ hw (by simp [headIsSpace]),
      show (['\\', ' '] ++ reEscape (List.intercalate [' '] (w1 :: ws'))) =
        '\\' :: ' ' :: reEscape (List.intercalate [' '] (w1 :: ws')) from rfl,
      pyRepAux_escSp_match,
      show pyRepAux ['\\', ' '] ['\\', 's', '*']
          (reEscape (List.intercalate [' '] (w1 :: ws'))) 0 =
        create_flexible_pattern (List.intercalate [' '] (w1 :: ws')) from rfl,
      ih]
    rw [show List.map reEscape (w :: w1 :: ws') =
      reEscape w :: reEscape w1 :: List.map reEscape ws' from rfl, intercalate_cons₂]
    simp

theorem tokenize_cons_of_ne (c : Char) (tail : List Char) (h : c ≠ '\\') :
    tokenize (c :: tail) = Tok.lit c :: tokenize tail := by
  cases tail with
  | nil => rfl
  | cons d t =>
    cases t with
    | nil => simp [tokenize, h]
    | cons e r => simp [tokenize, h]

theorem tokenize_esc_of_ne_s (c : Char) (tail : List Char) (h : c ≠ 's') :
    tokenize ('\\' :: c :: tail) = Tok.lit c :: tokenize tail := by
  cases tail with
  | nil => simp [tokenize]
  | cons e r => simp [tokenize, h]

theorem tokenize_wsRep (rest : List Char) :
    tokenize ('\\' :: 's' :: '*' :: rest) = Tok.wsStar :: tokenize rest := by
  simp [tokenize]

theorem tokenize_reEscape : ∀ (w rest : List Char),
    tokenize (reEscape w ++ rest) = w.map Tok.lit ++ tokenize rest
  | [], rest => by simp [reEscape]
  | c :: t, rest => by
    have ih := tokenize_reEscape t rest
    by_cases hs : pySpecial c = true
    · rw [show reEscape (c :: t) = '\\' :: c :: reEscape t from by simp [reEscape, hs]]
      show tokenize ('\\' :: c :: (reEscape t ++ rest)) = _
      rw [tokenize_esc_of_ne_s c _ (pySpecial_ne_s c hs), ih]
      simp
    · rw [show reEscape (c :: t) = c :: reEscape t from by simp [reEscape, hs]]
      show tokenize (c :: (reEscape t ++ rest)) = _
      rw [tokenize_cons_of_ne c _ (pySpecial_ne_backslash c (by simpa using hs)), ih]
      simp

theorem tokenize_interEsc : ∀ (w : List Char) (ws : List (List Char)),
    tokenize (List.intercalate ['\\', 's', '*'] ((w :: ws).map reEscape)) =
      List.intercalate [Tok.wsStar] ((w :: ws).map (List.map Tok.lit))
  | w, [] => by
    rw [show (([w] : List (List Char)).map reEscape) = [reEscape w] from rfl,
      intercalate_singleton,
      show (([w] : List (List Char)).map (List.map Tok.lit)) = [List.map Tok.lit w] from rfl,
      intercalate_singleton]
    have h := tokenize_reEscape w []
    simpa [tokenize] using h
  | w, w1 :: ws' => by
    have ih := tokenize_interEsc w1 ws'
    rw [show List.map reEscape (w :: w1 :: ws') =
        reEscape w :: reEscape w1 :: List.map reEscape ws' from rfl,
      intercalate_cons₂, List.append_assoc, tokenize_reEscape w _,
      show (['\\', 's', '*'] ++
          List.intercalate ['\\', 's', '*'] (reEscape w1 :: List.map reEscape ws')) =
        '\\' :: 's' :: '*' ::
          List.intercalate ['\\', 's', '*'] (reEscape w1 :: List.map reEscape ws') from rfl,
      tokenize_wsRep,
      show List.intercalate ['\\', 's', '*'] (reEscape w1 :: List.map reEscape ws') =
        List.intercalate ['\\', 's', '*'] (List.map reEscape (w1 :: ws')) from rfl,
      ih,
      show List.map (List.map Tok.lit) (w :: w1 :: ws') =
        List.map Tok.lit w :: List.map Tok.lit w1 :: List.map (List.map Tok.lit) ws' from rfl,
      intercalate_cons₂]
    simp

theorem tokenize_pattern_words (w : List Char) (ws : List (List Char))
    (hw : ∀ c ∈ w, c ≠ ' ') (hws : ∀ u ∈ ws, ∀ c ∈ u, c ≠ ' ') :
    tokenize (create_flexible_pattern (List.intercalate [' '] (w :: ws))) =
      List.intercalate [Tok.wsStar] ((w :: ws).map (List.map Tok.lit)) := by
  rw [create_flexible_pattern_words w ws hw hws]
  exact tokenize_interEsc w ws

theorem eqIC_refl (c : Char) : eqIC c c = true := by simp [eqIC]

theorem matchLen_lit_append : ∀ (w : List Char) (ts : List Tok) (s : List Char),
    (matchLen ts s).isSome = true →
    (matchLen (w.map Tok.lit ++ ts) (w ++ s)).isSome = true
  | [], ts, s, h => by simpa using h
  | c :: t, ts, s, h => by
    have ih := matchLen_lit_append t ts s h
    cases hx : matchLen (List.map Tok.lit t ++ ts) (t ++ s) with
    | none => rw [hx] at ih; simp at ih
    | some n => simp [matchLen, eqIC_refl, hx]

theorem matchWsStar_of_k (k : List Char → Option Nat) (s : List Char)
    (h : (k s).isSome = true) : (matchWsStar k s).isSome = true := by
  cases s with
  | nil => simpa [matchWsStar] using h
  | cons c rest =>
    by_cases hw : isWs c = true
    · cases hx : matchWsStar k rest with
      | none => simpa [matchWsStar, hw, hx] using h
      | some n => simp [matchWsStar, hw, hx]
    · simpa [matchWsStar, hw] using h

theorem matchWsStar_append (k : List Char → Option Nat) : ∀ (sep s : List Char),
    (∀ c ∈ sep, isWs c = true) → (k s).isSome = true →
    (matchWsStar k (sep ++ s)).isSome = true
  | [], s, _, h => by simpa using matchWsStar_of_k k s h
  | c :: sep', s, hsep, h => by
    have hws : isWs c = true := hsep c (by simp)
    have ih := matchWsStar_append k sep' s
      (fun x hx => hsep x (List.mem_cons_of_mem c hx)) h
    cases hx : matchWsStar k (sep' ++ s) with
    | none => rw [hx] at ih; simp at ih
    | some n => simp [matchWsStar, hws, hx]

theorem matchLen_wsStar (ts : List Tok) (sep s : List Char)
    (hsep : ∀ c ∈ sep, isWs c = true) (h : (matchLen ts s).isSome = true) :
    (matchLen (Tok.wsStar :: ts) (sep ++ s)).isSome = true := by
  simp only [matchLen]
  exact matchWsStar_append (matchLen ts) sep s hsep h

theorem matchLen_join : ∀ (w : List Char) (rest : List (List Char × List Char)),
    (∀ p ∈ rest, ∀ c ∈ p.1, isWs c = true) →
    (matchLen
      (List.intercalate [Tok.wsStar] ((w :: rest.map Prod.snd).map (List.map Tok.lit)))
      (w ++ (rest.map fun p => p.1 ++ p.2).flatten)).isSome = true
  | w, [], _ => by
    simp only [List.map_nil]
    rw [show (([w] : List (List Char)).map (List.map Tok.lit)) = [List.map Tok.lit w] from rfl,
      intercalate_singleton]
    have h := matchLen_lit_append w [] [] (by simp [matchLen])
    simpa using h
  | w, (sp, w1) :: rest', hsep => by
    have hsp : ∀ c ∈ sp, isWs c = true := by
      have h1 := hsep (sp, w1) (by simp)
      simpa using h1
    have hsep' : ∀ p ∈ rest', ∀ c ∈ p.1, isWs c = true :=
      fun p hp => hsep p (List.mem_cons_of_mem _ hp)
    have ih := matchLen_join w1 rest' hsep'
    rw [show ((w :: ((sp, w1) :: rest').map Prod.snd).map (List.map Tok.lit)) =
        List.map Tok.lit w :: List.map Tok.lit w1 ::
          (rest'.map Prod.snd).map (List.map Tok.lit) from rfl,
      intercalate_cons₂,
      show ((((sp, w1) :: rest').map fun p => p.1 ++ p.2).flatten) =
        (sp ++ w1) ++ (rest'.map fun p => p.1 ++ p.2).flatten from rfl,
      List.append_assoc]
    have h2 : (matchLen
        (Tok.wsStar :: List.intercalate [Tok.wsStar]
          (List.map Tok.lit w1 :: (rest'.map Prod.snd).map (List.map Tok.lit)))
        (sp ++ (w1 ++ (rest'.map fun p => p.1 ++ p.2).flatten))).isSome = true := by
      apply matchLen_wsStar _ sp _ hsp
      exact ih
    have h3 := matchLen_lit_append w _ _ h2
    simpa [List.append_assoc] using h3

theorem reSearch_of_matchLen (ts : List Tok) (s : List Char)
    (h : (matchLen ts s).isSome = true) : reSearch ts s = true := by
  cases s with
  | nil => simpa [reSearch] using h
  | cons c rest => simp [reSearch, h]

/-- No character of the word is a plain space. -/
def noSpaceChar (w : List Char) : Bool := w.all (fun c => !(c == ' '))

/-- Every character of the string is whitespace. -/
def allWsChars (l : List Char) : Bool := l.all isWs

/-- C4: flexible pattern construction.  `create_flexible_pattern` returns
exactly the escaped term with every escaped single space replaced by the
zero-or-more-whitespace wildcard, and for every term assembled from
space-free words joined by single spaces and every text in which those
words appear in order separated by arbitrary whitespace runs,
`is_flexible_match` accepts the text (case-insensitively). -/
theorem c4_flexible_pattern :
    (∀ term : List Char,
        create_flexible_pattern term =
          pyReplace ['\\', ' '] ['\\', 's', '*'] (reEscape term))
    ∧ ∀ (w : List Char) (rest : List (List Char × List Char)),
        noSpaceChar w = true →
        ((rest.map Prod.snd).all noSpaceChar) = true →
        ((rest.map Prod.fst).all allWsChars) = true →
        is_flexible_match (w ++ (rest.map fun p => p.1 ++ p.2).flatten)
          (List.intercalate [' '] (w :: rest.map Prod.snd)) = true := by
  refine ⟨fun term => rfl, fun w rest hw hws hsep => ?_⟩
  have hw' : ∀ c ∈ w, c ≠ ' ' := by
    intro c hc
    have h1 := (List.all_eq_true.mp hw) c hc
    simpa using h1
  have hws' : ∀ u ∈ rest.map Prod.snd, ∀ c ∈ u, c ≠ ' ' := by
    intro u hu c hc
    have h1 := (List.all_eq_true.mp hws) u hu
    have h2 := (List.all_eq_true.mp h1) c hc
    simpa using h2
  have hsep' : ∀ p ∈ rest, ∀ c ∈ p.1, isWs c = true := by
    intro p hp c hc
    have h1 := (List.all_eq_true.mp hsep) p.1 (List.mem_map_of_mem Prod.fst hp)
    exact (List.all_eq_true.mp h1) c hc
  show reSearch (tokenize (create_flexible_pattern _)) _ = true
  rw [tokenize_pattern_words w (rest.map Prod.snd) hw' hws']
  exact reSearch_of_matchLen _ _ (matchLen_join w rest hsep')

/-- Witness for C4 at the concrete words John and Doe separated by three
spaces: the flexible pattern built from the term John Doe matches the text
John(3 spaces)Doe. -/
theorem c4_flexible_pattern_witness :
    noSpaceChar "John".data = true
    ∧ (([("   ".data, "Doe".data)].map Prod.snd).all noSpaceChar) = true
    ∧ (([("   ".data, "Doe".data)].map Prod.fst).all allWsChars) = true
    ∧ is_flexible_match
        ("John".data ++ ([("   ".data, "Doe".data)].map fun p => p.1 ++ p.2).flatten)
        (List.intercalate [' '] ("John".data :: [("   ".data, "Doe".data)].map Prod.snd))
      = true :=
  ⟨by decide, by decide, by decide,
   c4_flexible_pattern.2 "John".data [("   ".data, "Doe".data)]
     (by decide) (by decide) (by decide)⟩
